import Mathlib

/-!
Shallow embedding of `src/t3vip/occ_map/OccMap_cuda_kernel.cu`: the two-pass
forward projection / depth-test / index-map algorithm and the backward
gradient-scatter algorithm.

Modelling conventions:
* Machine floats are modelled by exact rationals `ℚ`; the spec's §4.3 notes the
  pass-2 equality test relies on bit-for-bit identical recomputation, which the
  exact model reflects.  The IEEE-754 bit-pattern argument behind the pass-1
  `atomicMin` (claim C2) and the float round-trip of the stored index offset
  (claim C10) are modelled separately, at the bit level.
* The strided-tensor memory layout is out of scope per the spec (§1): buffers
  are modelled per logical cell `(batch, row, col)`, one value (or one
  3-channel record) per cell, and the flat offset a kernel would compute from
  the strides is represented by the cell it addresses.
* Each `__global__` kernel is modelled as a fold of its per-work-item step over
  a list of work items; executing the work items in list order is one
  interleaving of the parallel launch (claim C8 studies reorderings).
-/

namespace OccMap

/-- A 3-channel record (x, y, z): an input point in camera space, or a
gradient triple. -/
structure Pt where
  x : ℚ
  y : ℚ
  z : ℚ

/-- Logical coordinates of a grid cell: (batch, row, col). -/
abbrev Cell := ℕ × ℕ × ℕ

/-- Camera intrinsics (fy, fx, cy, cx), shared by the whole call. -/
structure Cam where
  fy : ℚ
  fx : ℚ
  cy : ℚ
  cx : ℚ

/-- Grid extents: batch count, rows, cols. -/
structure Dims where
  B : ℕ
  R : ℕ
  C : ℕ

/-- `getCoordinates_1`: decompose a flat work-item id, col = id % ncols,
row = (id / ncols) % nrows, batch = (id / ncols) / nrows. -/
def getCoordinates (R C id : ℕ) : Cell := (id / C / R, id / C % R, id % C)

/-- The work-item count `npoints = batchSize * nrows * ncols`. -/
def npoints (d : Dims) : ℕ := d.B * d.R * d.C

/-- All work items of one launch, as cells, in flat-id order. -/
def cellList (d : Dims) : List Cell :=
  (List.range (npoints d)).map (getCoordinates d.R d.C)

/-- CUDA `round()`: round to the nearest integer, halves away from zero. -/
def cround (q : ℚ) : ℤ := if 0 ≤ q then ⌊q + 1/2⌋ else ⌈q - 1/2⌉

/-- `xpix = ((x/z) * fx) + cx`. -/
def xpixOf (cam : Cam) (p : Pt) : ℚ := p.x / p.z * cam.fx + cam.cx

/-- `ypix = ((y/z) * fy) + cy`. -/
def ypixOf (cam : Cam) (p : Pt) : ℚ := p.y / p.z * cam.fy + cam.cy

/-- The kernels' bounds check:
`xpixr >= 0 && xpixr < ncols && ypixr >= 0 && ypixr < nrows`. -/
def inB (d : Dims) (cam : Cam) (p : Pt) : Prop :=
  0 ≤ cround (xpixOf cam p) ∧ cround (xpixOf cam p) < (d.C : ℤ) ∧
  0 ≤ cround (ypixOf cam p) ∧ cround (ypixOf cam p) < (d.R : ℤ)

instance (d : Dims) (cam : Cam) (p : Pt) : Decidable (inB d cam p) := by
  unfold inB; exact inferInstance

/-- The output cell a point at cell i projects to: same batch, row = ypixr,
col = xpixr (the kernels' offset `b*is0 + ypixr*is2 + xpixr*is3`). -/
def tgt (cam : Cam) (i : Cell) (p : Pt) : Cell :=
  (i.1, (cround (ypixOf cam p)).toNat, (cround (xpixOf cam p)).toNat)

/-- One work item of `projectPointsAndDepthTest`: skip when z <= 0, project,
round, bounds-check, then take the minimum of the target cell's depth channel
and z (the semantics the bit-reinterpreted `atomicMin` realizes, claim C2). -/
def pass1Step (cam : Cam) (d : Dims) (inp : Cell → Pt) (D : Cell → ℚ) (i : Cell) :
    Cell → ℚ :=
  if 0 < (inp i).z then
    if inB d cam (inp i) then
      fun u => if u = tgt cam i (inp i) then min (D u) (inp i).z else D u
    else D
  else D

/-- Pass 1 executed in a given work-item order. -/
def pass1L (cam : Cam) (d : Dims) (inp : Cell → Pt) (l : List Cell) (D0 : Cell → ℚ) :
    Cell → ℚ :=
  l.foldl (pass1Step cam d inp) D0

/-- Pass 1 over the whole launch, in flat-id order. -/
def pass1 (cam : Cam) (d : Dims) (inp : Cell → Pt) (D0 : Cell → ℚ) : Cell → ℚ :=
  pass1L cam d inp (cellList d) D0

/-- Whether the input point at cell i is a valid candidate for output cell t:
z > 0, in-bounds rounded projection, and the projection targets t. -/
def isCand (cam : Cam) (d : Dims) (inp : Cell → Pt) (t i : Cell) : Bool :=
  decide (0 < (inp i).z) && decide (inB d cam (inp i)) &&
    decide (tgt cam i (inp i) = t)

/-- The depths of all valid candidates for cell t, in work-item order. -/
def candZs (cam : Cam) (d : Dims) (inp : Cell → Pt) (t : Cell) : List ℚ :=
  ((cellList d).filter (isCand cam d inp t)).map fun i => (inp i).z

/-- The minimum of a list, `none` when the list is empty. -/
def minList {α : Type} [LinearOrder α] : List α → Option α
  | [] => none
  | a :: l => some (l.foldl min a)

theorem foldl_min_le_init {α : Type} [LinearOrder α] (l : List α) (a : α) :
    l.foldl min a ≤ a := by
  induction l generalizing a with
  | nil => exact le_refl a
  | cons b l ih => exact le_trans (ih (min a b)) (min_le_left a b)

theorem foldl_min_le_mem {α : Type} [LinearOrder α] {l : List α} {b : α}
    (h : b ∈ l) (a : α) : l.foldl min a ≤ b := by
  induction l generalizing a with
  | nil => cases h
  | cons c l ih =>
    rcases List.mem_cons.mp h with rfl | hb
    · exact le_trans (foldl_min_le_init l (min a b)) (min_le_right a b)
    · exact ih hb (min a c)

theorem foldl_min_mem {α : Type} [LinearOrder α] (l : List α) (a : α) :
    l.foldl min a = a ∨ l.foldl min a ∈ l := by
  induction l generalizing a with
  | nil => exact Or.inl rfl
  | cons b l ih =>
    rcases ih (min a b) with h | h
    · rcases min_choice a b with hm | hm
      · exact Or.inl (by rw [List.foldl_cons, h, hm])
      · exact Or.inr (by rw [List.foldl_cons, h, hm]; exact List.mem_cons_self b l)
    · exact Or.inr (List.mem_cons_of_mem b h)

theorem minList_mem {α : Type} [LinearOrder α] {l : List α} {m : α}
    (h : minList l = some m) : m ∈ l := by
  cases l with
  | nil => simp [minList] at h
  | cons a l =>
    simp only [minList, Option.some.injEq] at h
    rcases foldl_min_mem l a with h2 | h2
    · rw [← h, h2]; exact List.mem_cons_self a l
    · rw [← h]; exact List.mem_cons_of_mem a h2

theorem minList_le {α : Type} [LinearOrder α] {l : List α} {m b : α}
    (h : minList l = some m) (hb : b ∈ l) : m ≤ b := by
  cases l with
  | nil => cases hb
  | cons a l =>
    simp only [minList, Option.some.injEq] at h
    subst h
    rcases List.mem_cons.mp hb with rfl | hb2
    · exact foldl_min_le_init l b
    · exact foldl_min_le_mem hb2 a

theorem foldl_min_eq_minList {α : Type} [LinearOrder α] {l : List α} {a : α}
    (h : ∀ b ∈ l, b < a) : l.foldl min a = (minList l).getD a := by
  cases l with
  | nil => rfl
  | cons b l =>
    have hb : min a b = b :=
      min_eq_right (le_of_lt (h b (List.mem_cons_self b l)))
    simp only [minList, List.foldl_cons, hb, Option.getD_some]

/-- The depth channel of one cell, through one pass-1 work item. -/
theorem pass1Step_apply (cam : Cam) (d : Dims) (inp : Cell → Pt) (D : Cell → ℚ)
    (i t : Cell) :
    pass1Step cam d inp D i t =
      if isCand cam d inp t i then min (D t) (inp i).z else D t := by
  unfold pass1Step isCand
  by_cases h1 : 0 < (inp i).z
  · by_cases h2 : inB d cam (inp i)
    · by_cases h3 : tgt cam i (inp i) = t
      · simp [h1, h2, h3]
      · have h3s : ¬t = tgt cam i (inp i) := fun h => h3 h.symm
        simp [h1, h2, h3, h3s]
    · simp [h1, h2]
  · simp [h1]

/-- The depth channel of one cell, through pass 1 in any work-item order:
a running minimum over that cell's candidates. -/
theorem pass1L_apply (cam : Cam) (d : Dims) (inp : Cell → Pt) (l : List Cell)
    (D0 : Cell → ℚ) (t : Cell) :
    pass1L cam d inp l D0 t =
      ((l.filter (isCand cam d inp t)).map fun i => (inp i).z).foldl min (D0 t) := by
  induction l generalizing D0 with
  | nil => rfl
  | cons i l ih =>
    rw [pass1L, List.foldl_cons, List.filter_cons]
    by_cases hc : isCand cam d inp t i
    · simp only [hc, if_pos, List.map_cons, List.foldl_cons]
      rw [← pass1L, ih]
      congr 1
      rw [pass1Step_apply, if_pos hc]
    · simp only [hc, Bool.false_eq_true, if_false]
      rw [← pass1L, ih]
      congr 1
      rw [pass1Step_apply, if_neg (by simp [hc])]

/-- C1: after pass 1 (output depth pre-filled with a sentinel larger than any
candidate depth), every cell's depth channel equals the minimum z over the
valid input points (z > 0) whose rounded in-bounds projection lands on that
cell, and still holds the sentinel when no such point exists. -/
theorem pass1_depth_test (cam : Cam) (d : Dims) (inp : Cell → Pt) (D0 : Cell → ℚ)
    (t : Cell) (hsent : ∀ q ∈ candZs cam d inp t, q < D0 t) :
    pass1 cam d inp D0 t = (minList (candZs cam d inp t)).getD (D0 t) := by
  rw [pass1, pass1L_apply]
  exact foldl_min_eq_minList hsent

/-- A 1-batch 1x1 grid whose single point (0,0,1) projects to cell (0,0,0). -/
def camW : Cam := { fy := 1, fx := 1, cy := 0, cx := 0 }

def dW : Dims := { B := 1, R := 1, C := 1 }

def inpW : Cell → Pt := fun _ => { x := 0, y := 0, z := 1 }

theorem pass1_depth_test_witness :
    (∀ q ∈ candZs camW dW inpW (0, 0, 0), q < 2) ∧
      pass1 camW dW inpW (fun _ => 2) (0, 0, 0) =
        (minList (candZs camW dW inpW (0, 0, 0))).getD 2 := by
  have h : ∀ q ∈ candZs camW dW inpW (0, 0, 0), q < (fun _ => (2 : ℚ)) ((0, 0, 0) : Cell) := by
    with_unfolding_all decide
  exact ⟨h, pass1_depth_test camW dW inpW (fun _ => 2) (0, 0, 0) h⟩

/-- The output-side state: output grid channels (projected x-pixel, projected
y-pixel, depth) and the index map.  The index map holds the winning input
point's identity (the cell its flat offset addresses) or `none`, the
"no winner" sentinel stored as -1. -/
@[ext]
structure St where
  outX : Cell → ℚ
  outY : Cell → ℚ
  outZ : Cell → ℚ
  idx : Cell → Option Cell

/-- The sentinel reset of `refineOutput`: a pass-2 work item zeroes the depth
channel of its own cell when it still holds the sentinel (`HUGE_VALF`,
modelled by the parameter sent). -/
def resetOwn (sent : ℚ) (s : St) (i : Cell) : St :=
  if s.outZ i = sent then
    { s with outZ := fun u => if u = i then 0 else s.outZ u }
  else s

/-- One work item of `refineOutput`: reset the own cell's sentinel depth, then
recompute the projection exactly as pass 1 did; when the target cell's depth
equals this point's z, commit the unrounded pixel coordinates to the target
cell's first two channels and record this point in the index map. -/
def pass2Step (cam : Cam) (d : Dims) (inp : Cell → Pt) (sent : ℚ) (s : St) (i : Cell) :
    St :=
  if 0 < (inp i).z then
    if inB d cam (inp i) then
      if (resetOwn sent s i).outZ (tgt cam i (inp i)) = (inp i).z then
        { outZ := (resetOwn sent s i).outZ,
          outX := fun u => if u = tgt cam i (inp i) then xpixOf cam (inp i) else s.outX u,
          outY := fun u => if u = tgt cam i (inp i) then ypixOf cam (inp i) else s.outY u,
          idx := fun u => if u = tgt cam i (inp i) then some i else s.idx u }
      else resetOwn sent s i
    else resetOwn sent s i
  else resetOwn sent s i

/-- Pass 2 executed in a given work-item order. -/
def pass2L (cam : Cam) (d : Dims) (inp : Cell → Pt) (sent : ℚ) (l : List Cell) (s : St) :
    St :=
  l.foldl (pass2Step cam d inp sent) s

/-- Modelled from the spec: the caller (host code outside this repository's
sources) allocates the output grid and index map and, per the Forward
precondition of spec §6, pre-fills the depth channel with the sentinel and the
index map with the "no winner" sentinel before the forward call. -/
def callerInit (sent : ℚ) (X0 Y0 : Cell → ℚ) : St :=
  { outX := X0, outY := Y0, outZ := fun _ => sent, idx := fun _ => none }

/-- The state between the two forward kernels: pass 1 has rewritten the depth
channel, nothing else has run. -/
def midSt (cam : Cam) (d : Dims) (inp : Cell → Pt) (sent : ℚ) (X0 Y0 : Cell → ℚ) : St :=
  { callerInit sent X0 Y0 with
      outZ := pass1 cam d inp (callerInit sent X0 Y0).outZ }

/-- `OccMap_cuda_forward`: launch `projectPointsAndDepthTest`, synchronize,
then launch `refineOutput`. -/
def forward (cam : Cam) (d : Dims) (inp : Cell → Pt) (sent : ℚ) (X0 Y0 : Cell → ℚ) : St :=
  pass2L cam d inp sent (cellList d) (midSt cam d inp sent X0 Y0)

/-- Jacobian-vector product of the pinhole projection, exactly as
`projectionGradient` computes it. -/
def gradPt (cam : Cam) (p g : Pt) : Pt :=
  { x := cam.fx / p.z * g.x,
    y := cam.fy / p.z * g.y,
    z := -p.x / p.z ^ 2 * cam.fx * g.x + -p.y / p.z ^ 2 * cam.fy * g.y + g.z }

/-- One work item of `projectionGradient`: output cell j routes its incoming
gradient triple to the recorded winner's input location, or does nothing when
the index map holds the no-winner sentinel. -/
def backStep (cam : Cam) (inp : Cell → Pt) (idxm : Cell → Option Cell) (gOut : Cell → Pt)
    (G : Cell → Pt) (j : Cell) : Cell → Pt :=
  match idxm j with
  | none => G
  | some i => fun u => if u = i then gradPt cam (inp i) (gOut j) else G u

/-- The backward pass executed in a given work-item order. -/
def backwardL (cam : Cam) (inp : Cell → Pt) (idxm : Cell → Option Cell) (gOut : Cell → Pt)
    (l : List Cell) (G0 : Cell → Pt) : Cell → Pt :=
  l.foldl (backStep cam inp idxm gOut) G0

/-- `OccMap_cuda_backward`: one launch of `projectionGradient` over all output
cells (the input-gradient grid G0 is the caller's pre-zeroed buffer). -/
def backward (cam : Cam) (d : Dims) (inp : Cell → Pt) (idxm : Cell → Option Cell)
    (gOut : Cell → Pt) (G0 : Cell → Pt) : Cell → Pt :=
  backwardL cam inp idxm gOut (cellList d) G0

/-- Point i commits the winning (minimum) depth for cell t, relative to the
pass-1-complete depth buffer D1: it is a valid candidate for t and its z
equals the depth the depth test left there (the pass-2 `zo == z` check). -/
def isWin (cam : Cam) (d : Dims) (inp : Cell → Pt) (D1 : Cell → ℚ) (t i : Cell) : Bool :=
  isCand cam d inp t i && decide ((inp i).z = D1 t)

/-- The most recently processed winner for cell t among the work items of l. -/
def lastWin (cam : Cam) (d : Dims) (inp : Cell → Pt) (D1 : Cell → ℚ)
    (l : List Cell) (t : Cell) : Option Cell :=
  l.foldl (fun acc i => if isWin cam d inp D1 t i then some i else acc) none

/-- Depth buffer after the pass-2 sentinel resets of the work items in done. -/
def zDone (sent : ℚ) (D1 : Cell → ℚ) (done : List Cell) : Cell → ℚ :=
  fun t => if t ∈ done ∧ D1 t = sent then 0 else D1 t

/-- The pass-2 state after the work items of done have run, starting from the
pass-1-complete depth buffer D1 and the caller-initialized outX, outY and
index map. -/
def pass2Done (cam : Cam) (d : Dims) (inp : Cell → Pt) (sent : ℚ)
    (D1 X0 Y0 : Cell → ℚ) (I0 : Cell → Option Cell) (done : List Cell) : St :=
  { outX := fun t => match lastWin cam d inp D1 done t with
      | some i => xpixOf cam (inp i)
      | none => X0 t,
    outY := fun t => match lastWin cam d inp D1 done t with
      | some i => ypixOf cam (inp i)
      | none => Y0 t,
    outZ := zDone sent D1 done,
    idx := fun t => match lastWin cam d inp D1 done t with
      | some i => some i
      | none => I0 t }

theorem lastWin_snoc (cam : Cam) (d : Dims) (inp : Cell → Pt) (D1 : Cell → ℚ)
    (l : List Cell) (i t : Cell) :
    lastWin cam d inp D1 (l ++ [i]) t =
      if isWin cam d inp D1 t i then some i else lastWin cam d inp D1 l t := by
  unfold lastWin
  rw [List.foldl_append]
  rfl

theorem isWin_ne_tgt (cam : Cam) (d : Dims) (inp : Cell → Pt) (D1 : Cell → ℚ)
    {t i : Cell} (h : t ≠ tgt cam i (inp i)) :
    isWin cam d inp D1 t i = false := by
  have hne : ¬tgt cam i (inp i) = t := fun hh => h hh.symm
  unfold isWin isCand
  simp [hne]

theorem isWin_invalid (cam : Cam) (d : Dims) (inp : Cell → Pt) (D1 : Cell → ℚ)
    {i : Cell} (h : ¬0 < (inp i).z ∨ ¬inB d cam (inp i)) (t : Cell) :
    isWin cam d inp D1 t i = false := by
  unfold isWin isCand
  rcases h with h | h <;> simp [h]

theorem resetOwn_outX (sent : ℚ) (s : St) (i : Cell) :
    (resetOwn sent s i).outX = s.outX := by
  unfold resetOwn; split <;> rfl

theorem resetOwn_outY (sent : ℚ) (s : St) (i : Cell) :
    (resetOwn sent s i).outY = s.outY := by
  unfold resetOwn; split <;> rfl

theorem resetOwn_idx (sent : ℚ) (s : St) (i : Cell) :
    (resetOwn sent s i).idx = s.idx := by
  unfold resetOwn; split <;> rfl

/-- The sentinel reset advances the reset-state of the depth buffer by one
work item (the only pass-2 write to the depth channel). -/
theorem mem_snoc_of_ne {t i : Cell} (done : List Cell) (hti : ¬t = i)
    (h : t ∈ done ++ [i]) : t ∈ done := by
  rcases List.mem_append.mp h with h2 | h2
  · exact h2
  · exact absurd (List.mem_singleton.mp h2) hti

/-- The sentinel reset advances the reset-state of the depth buffer by one
work item (the only pass-2 write to the depth channel). -/
theorem resetOwn_zDone (sent : ℚ) (D1 : Cell → ℚ) (hsent : 0 < sent)
    (s : St) (done : List Cell) (i : Cell) (hs : s.outZ = zDone sent D1 done) :
    (resetOwn sent s i).outZ = zDone sent D1 (done ++ [i]) := by
  have h0 : (0 : ℚ) ≠ sent := ne_of_lt hsent
  unfold resetOwn
  by_cases hc : s.outZ i = sent
  · rw [if_pos hc]
    rw [hs] at hc
    have hD1i : D1 i = sent := by
      unfold zDone at hc
      by_cases hmem : i ∈ done ∧ D1 i = sent
      · exact hmem.2
      · rwa [if_neg hmem] at hc
    funext t
    show (if t = i then 0 else s.outZ t) = zDone sent D1 (done ++ [i]) t
    by_cases hti : t = i
    · rw [if_pos hti]
      unfold zDone
      rw [if_pos ⟨by rw [hti]; exact List.mem_append_right done (by simp), by rw [hti]; exact hD1i⟩]
    · rw [if_neg hti, hs]
      unfold zDone
      by_cases hD : t ∈ done ∧ D1 t = sent
      · rw [if_pos hD, if_pos ⟨List.mem_append_left _ hD.1, hD.2⟩]
      · have hn2 : ¬(t ∈ done ++ [i] ∧ D1 t = sent) :=
          fun hh => hD ⟨mem_snoc_of_ne done hti hh.1, hh.2⟩
        rw [if_neg hD, if_neg hn2]
  · rw [if_neg hc]
    rw [hs] at hc ⊢
    funext t
    unfold zDone at hc ⊢
    by_cases hti : t = i
    · subst hti
      by_cases hD1 : D1 t = sent
      · have hmem : t ∈ done := by
          by_contra hn
          rw [if_neg (fun hh => hn hh.1)] at hc
          exact hc hD1
        rw [if_pos ⟨hmem, hD1⟩, if_pos ⟨List.mem_append_left _ hmem, hD1⟩]
      · rw [if_neg (fun hh => hD1 hh.2), if_neg (fun hh => hD1 hh.2)]
    · by_cases hD : t ∈ done ∧ D1 t = sent
      · rw [if_pos hD, if_pos ⟨List.mem_append_left _ hD.1, hD.2⟩]
      · have hn2 : ¬(t ∈ done ++ [i] ∧ D1 t = sent) :=
          fun hh => hD ⟨mem_snoc_of_ne done hti hh.1, hh.2⟩
        rw [if_neg hD, if_neg hn2]

/-- A pass-2 work item that wins no cell only performs its sentinel reset. -/
theorem reset_eq_done (cam : Cam) (d : Dims) (inp : Cell → Pt) (sent : ℚ)
    (D1 X0 Y0 : Cell → ℚ) (I0 : Cell → Option Cell) (done : List Cell) (i : Cell)
    (hsent : 0 < sent) (hw : ∀ t, isWin cam d inp D1 t i = false) :
    resetOwn sent (pass2Done cam d inp sent D1 X0 Y0 I0 done) i =
      pass2Done cam d inp sent D1 X0 Y0 I0 (done ++ [i]) := by
  have hlw : ∀ t, lastWin cam d inp D1 (done ++ [i]) t = lastWin cam d inp D1 done t := by
    intro t
    rw [lastWin_snoc, hw t]
    simp
  apply St.ext
  · rw [resetOwn_outX]
    funext t
    show _ = match lastWin cam d inp D1 (done ++ [i]) t with
      | some j => xpixOf cam (inp j)
      | none => X0 t
    rw [hlw t]
    rfl
  · rw [resetOwn_outY]
    funext t
    show _ = match lastWin cam d inp D1 (done ++ [i]) t with
      | some j => ypixOf cam (inp j)
      | none => Y0 t
    rw [hlw t]
    rfl
  · exact resetOwn_zDone sent D1 hsent _ done i rfl
  · rw [resetOwn_idx]
    funext t
    show _ = match lastWin cam d inp D1 (done ++ [i]) t with
      | some j => some j
      | none => I0 t
    rw [hlw t]
    rfl

/-- One pass-2 work item advances the state of `pass2Done` by one item. -/
theorem pass2Step_done (cam : Cam) (d : Dims) (inp : Cell → Pt) (sent : ℚ)
    (D1 X0 Y0 : Cell → ℚ) (I0 : Cell → Option Cell) (done : List Cell) (i : Cell)
    (hsent : 0 < sent)
    (hD1i : 0 < (inp i).z → inB d cam (inp i) → D1 (tgt cam i (inp i)) ≤ (inp i).z)
    (hzi : 0 < (inp i).z → (inp i).z < sent) :
    pass2Step cam d inp sent (pass2Done cam d inp sent D1 X0 Y0 I0 done) i =
      pass2Done cam d inp sent D1 X0 Y0 I0 (done ++ [i]) := by
  unfold pass2Step
  by_cases h1 : 0 < (inp i).z
  · by_cases h2 : inB d cam (inp i)
    · rw [if_pos h1, if_pos h2]
      have hRZ : (resetOwn sent (pass2Done cam d inp sent D1 X0 Y0 I0 done) i).outZ =
          zDone sent D1 (done ++ [i]) :=
        resetOwn_zDone sent D1 hsent _ done i rfl
      have hDt : D1 (tgt cam i (inp i)) ≠ sent :=
        ne_of_lt (lt_of_le_of_lt (hD1i h1 h2) (hzi h1))
      have hZt : (resetOwn sent (pass2Done cam d inp sent D1 X0 Y0 I0 done) i).outZ
          (tgt cam i (inp i)) = D1 (tgt cam i (inp i)) := by
        rw [hRZ]
        unfold zDone
        rw [if_neg (fun hh => hDt hh.2)]
      by_cases h3 : D1 (tgt cam i (inp i)) = (inp i).z
      · rw [if_pos (by rw [hZt]; exact h3)]
        have hwin : isWin cam d inp D1 (tgt cam i (inp i)) i = true := by
          unfold isWin isCand
          rw [decide_eq_true h1, decide_eq_true h2, decide_eq_true (Eq.symm h3)]
          simp
        apply St.ext
        · funext u
          show (if u = tgt cam i (inp i) then xpixOf cam (inp i)
              else (pass2Done cam d inp sent D1 X0 Y0 I0 done).outX u) =
            match lastWin cam d inp D1 (done ++ [i]) u with
              | some j => xpixOf cam (inp j)
              | none => X0 u
          rw [lastWin_snoc]
          by_cases hu : u = tgt cam i (inp i)
          · rw [if_pos hu, hu, hwin]
            simp
          · rw [if_neg hu, isWin_ne_tgt cam d inp D1 hu]
            rfl
        · funext u
          show (if u = tgt cam i (inp i) then ypixOf cam (inp i)
              else (pass2Done cam d inp sent D1 X0 Y0 I0 done).outY u) =
            match lastWin cam d inp D1 (done ++ [i]) u with
              | some j => ypixOf cam (inp j)
              | none => Y0 u
          rw [lastWin_snoc]
          by_cases hu : u = tgt cam i (inp i)
          · rw [if_pos hu, hu, hwin]
            simp
          · rw [if_neg hu, isWin_ne_tgt cam d inp D1 hu]
            rfl
        · exact hRZ
        · funext u
          show (if u = tgt cam i (inp i) then some i
              else (pass2Done cam d inp sent D1 X0 Y0 I0 done).idx u) =
            match lastWin cam d inp D1 (done ++ [i]) u with
              | some j => some j
              | none => I0 u
          rw [lastWin_snoc]
          by_cases hu : u = tgt cam i (inp i)
          · rw [if_pos hu, hu, hwin]
            simp
          · rw [if_neg hu, isWin_ne_tgt cam d inp D1 hu]
            rfl
      · rw [if_neg (by rw [hZt]; exact h3)]
        refine reset_eq_done cam d inp sent D1 X0 Y0 I0 done i hsent (fun t => ?_)
        by_cases ht : t = tgt cam i (inp i)
        · rw [ht]
          unfold isWin
          have hdec : decide ((inp i).z = D1 (tgt cam i (inp i))) = false := by
            simp only [decide_eq_false_iff_not]
            exact fun hh => h3 hh.symm
          rw [hdec]
          simp
        · exact isWin_ne_tgt cam d inp D1 ht
    · rw [if_pos h1, if_neg h2]
      exact reset_eq_done cam d inp sent D1 X0 Y0 I0 done i hsent
        (isWin_invalid cam d inp D1 (Or.inr h2))
  · rw [if_neg h1]
    exact reset_eq_done cam d inp sent D1 X0 Y0 I0 done i hsent
      (isWin_invalid cam d inp D1 (Or.inl h1))

/-- Pass 2, run on any suffix of work items, advances `pass2Done` by exactly
those items. -/
theorem pass2L_done (cam : Cam) (d : Dims) (inp : Cell → Pt) (sent : ℚ)
    (D1 X0 Y0 : Cell → ℚ) (I0 : Cell → Option Cell) (done l : List Cell)
    (hsent : 0 < sent)
    (hD1 : ∀ j ∈ l, 0 < (inp j).z → inB d cam (inp j) → D1 (tgt cam j (inp j)) ≤ (inp j).z)
    (hz : ∀ j ∈ l, 0 < (inp j).z → (inp j).z < sent) :
    pass2L cam d inp sent l (pass2Done cam d inp sent D1 X0 Y0 I0 done) =
      pass2Done cam d inp sent D1 X0 Y0 I0 (done ++ l) := by
  induction l generalizing done with
  | nil => simp [pass2L]
  | cons i l ih =>
    rw [pass2L, List.foldl_cons, ← pass2L]
    rw [pass2Step_done cam d inp sent D1 X0 Y0 I0 done i hsent
      (hD1 i (List.mem_cons_self i l)) (hz i (List.mem_cons_self i l))]
    rw [ih (done ++ [i]) (fun j hj => hD1 j (List.mem_cons_of_mem i hj))
      (fun j hj => hz j (List.mem_cons_of_mem i hj))]
    rw [List.append_assoc, List.singleton_append]

/-- After pass 1, a cell's depth is at most the depth of any of its valid
candidates. -/
theorem pass1_le_cand (cam : Cam) (d : Dims) (inp : Cell → Pt) (D0 : Cell → ℚ)
    {i : Cell} (hi : i ∈ cellList d) (h1 : 0 < (inp i).z) (h2 : inB d cam (inp i)) :
    pass1 cam d inp D0 (tgt cam i (inp i)) ≤ (inp i).z := by
  rw [pass1, pass1L_apply]
  apply foldl_min_le_mem
  refine List.mem_map.mpr ⟨i, ?_, rfl⟩
  refine List.mem_filter.mpr ⟨hi, ?_⟩
  unfold isCand
  rw [decide_eq_true h1, decide_eq_true h2]
  simp

/-- The final state of `OccMap_cuda_forward`, in closed form: the depth
channel is the pass-1 minimum with sentinels zeroed, and the pixel channels
and index map hold the last-processed winner of each cell. -/
theorem forward_eq_done (cam : Cam) (d : Dims) (inp : Cell → Pt) (sent : ℚ)
    (X0 Y0 : Cell → ℚ) (hsent : 0 < sent)
    (hz : ∀ j ∈ cellList d, 0 < (inp j).z → (inp j).z < sent) :
    forward cam d inp sent X0 Y0 =
      pass2Done cam d inp sent (pass1 cam d inp fun _ => sent) X0 Y0
        (fun _ => none) (cellList d) := by
  have hmid : midSt cam d inp sent X0 Y0 =
      pass2Done cam d inp sent (pass1 cam d inp fun _ => sent) X0 Y0
        (fun _ => none) [] := by
    apply St.ext <;> rfl
  rw [forward, hmid]
  rw [pass2L_done cam d inp sent (pass1 cam d inp fun _ => sent) X0 Y0
    (fun _ => none) [] (cellList d) hsent
    (fun j hj hz1 hz2 => pass1_le_cand cam d inp (fun _ => sent) hj hz1 hz2) hz]
  rw [List.nil_append]

theorem lastWin_fold_some (cam : Cam) (d : Dims) (inp : Cell → Pt) (D1 : Cell → ℚ)
    (t : Cell) (l : List Cell) (acc : Option Cell) (i : Cell)
    (h : l.foldl (fun a j => if isWin cam d inp D1 t j then some j else a) acc = some i) :
    acc = some i ∨ (isWin cam d inp D1 t i = true ∧ i ∈ l) := by
  induction l generalizing acc with
  | nil => exact Or.inl h
  | cons j l ih =>
    rw [List.foldl_cons] at h
    rcases ih _ h with h2 | h2
    · by_cases hj : isWin cam d inp D1 t j = true
      · rw [if_pos hj] at h2
        right
        have hij : j = i := Option.some.inj h2
        subst hij
        exact ⟨hj, List.mem_cons_self j l⟩
      · rw [if_neg hj] at h2
        exact Or.inl h2
    · exact Or.inr ⟨h2.1, List.mem_cons_of_mem j h2.2⟩

theorem lastWin_some (cam : Cam) (d : Dims) (inp : Cell → Pt) (D1 : Cell → ℚ)
    {t : Cell} {l : List Cell} {i : Cell} (h : lastWin cam d inp D1 l t = some i) :
    isWin cam d inp D1 t i = true ∧ i ∈ l := by
  rcases lastWin_fold_some cam d inp D1 t l none i h with h2 | h2
  · cases h2
  · exact h2

theorem lastWin_none_of (cam : Cam) (d : Dims) (inp : Cell → Pt) (D1 : Cell → ℚ)
    {t : Cell} {l : List Cell} (h : ∀ j ∈ l, isWin cam d inp D1 t j = false) :
    lastWin cam d inp D1 l t = none := by
  unfold lastWin
  induction l with
  | nil => rfl
  | cons j l ih =>
    rw [List.foldl_cons, h j (List.mem_cons_self j l)]
    simp only [Bool.false_eq_true, if_false]
    exact ih (fun j2 hj2 => h j2 (List.mem_cons_of_mem j hj2))

/-- Unpack the winner predicate: a winner is a valid in-bounds candidate of
its cell whose depth is exactly the pass-1 minimum there. -/
theorem isWin_elim (cam : Cam) (d : Dims) (inp : Cell → Pt) (D1 : Cell → ℚ)
    {t i : Cell} (h : isWin cam d inp D1 t i = true) :
    0 < (inp i).z ∧ inB d cam (inp i) ∧ tgt cam i (inp i) = t ∧ (inp i).z = D1 t := by
  unfold isWin isCand at h
  simp only [Bool.and_eq_true, decide_eq_true_eq] at h
  exact ⟨h.1.1.1, h.1.1.2, h.1.2, h.2⟩

/-- When a cell's pass-1 depth moved off its initial value, some work item of
the launch is a winner for that cell. -/
theorem exists_winner (cam : Cam) (d : Dims) (inp : Cell → Pt) (D0 : Cell → ℚ)
    (t : Cell) (hne : pass1 cam d inp D0 t ≠ D0 t) :
    ∃ i, i ∈ cellList d ∧ isWin cam d inp (pass1 cam d inp D0) t i = true := by
  have happ := pass1L_apply cam d inp (cellList d) D0 t
  rcases foldl_min_mem (((cellList d).filter (isCand cam d inp t)).map
      fun i => (inp i).z) (D0 t) with h2 | h2
  · exact absurd (by rw [pass1, happ, h2]) hne
  · have hm : pass1 cam d inp D0 t ∈
        ((cellList d).filter (isCand cam d inp t)).map fun i => (inp i).z := by
      rw [pass1, happ]
      exact h2
    obtain ⟨i, hif, hzi⟩ := List.mem_map.mp hm
    have hfc := List.mem_filter.mp hif
    refine ⟨i, hfc.1, ?_⟩
    unfold isWin
    rw [hfc.2, decide_eq_true hzi]
    rfl

set_option maxRecDepth 40000

/-- A grid whose single point has z = -1: no valid projection anywhere. -/
def inpNeg : Cell → Pt := fun _ => { x := 0, y := 0, z := -1 }

/-- C3 counterexample: after Forward on a 1x1 grid whose only point has
z = -1, the cell's depth channel is 0 (not the sentinel 1000) while its index
map entry is the no-winner sentinel, so "winner recorded iff depth channel is
not the sentinel" fails at the post-Forward state. -/
theorem forward_idx_iff_cex :
    ¬(((forward camW dW inpNeg 1000 (fun _ => 0) (fun _ => 0)).idx (0, 0, 0) ≠ none) ↔
      ((forward camW dW inpNeg 1000 (fun _ => 0) (fun _ => 0)).outZ (0, 0, 0) ≠ 1000)) := by
  with_unfolding_all decide

theorem lastWin_fold_isSome (cam : Cam) (d : Dims) (inp : Cell → Pt) (D1 : Cell → ℚ)
    (t : Cell) (l : List Cell) (j : Cell) :
    l.foldl (fun a k => if isWin cam d inp D1 t k then some k else a) (some j) ≠ none := by
  induction l generalizing j with
  | nil => simp
  | cons k l ih =>
    rw [List.foldl_cons]
    by_cases hk : isWin cam d inp D1 t k = true
    · rw [if_pos hk]
      exact ih k
    · rw [if_neg hk]
      exact ih j

theorem lastWin_ne_none (cam : Cam) (d : Dims) (inp : Cell → Pt) (D1 : Cell → ℚ)
    {t : Cell} {l : List Cell} {i : Cell} (hmem : i ∈ l)
    (hwin : isWin cam d inp D1 t i = true) :
    lastWin cam d inp D1 l t ≠ none := by
  unfold lastWin
  induction l with
  | nil => cases hmem
  | cons k l ih =>
    rw [List.foldl_cons]
    rcases List.mem_cons.mp hmem with rfl | hm2
    · rw [if_pos hwin]
      exact lastWin_fold_isSome cam d inp D1 t l i
    · by_cases hk : isWin cam d inp D1 t k = true
      · rw [if_pos hk]
        exact lastWin_fold_isSome cam d inp D1 t l k
      · rw [if_neg hk]
        exact ih hm2

/-- C3 (amended): after Forward, a cell's index map entry holds a winner iff
the cell's depth channel at the end of pass 1 is not the sentinel (i.e. some
valid point claimed the cell); every unclaimed cell keeps the no-winner
sentinel. -/
theorem forward_idx_iff (cam : Cam) (d : Dims) (inp : Cell → Pt) (sent : ℚ)
    (X0 Y0 : Cell → ℚ) (hsent : 0 < sent)
    (hz : ∀ j ∈ cellList d, 0 < (inp j).z → (inp j).z < sent) (t : Cell) :
    ((forward cam d inp sent X0 Y0).idx t ≠ none ↔
      pass1 cam d inp (fun _ => sent) t ≠ sent) ∧
    (pass1 cam d inp (fun _ => sent) t = sent →
      (forward cam d inp sent X0 Y0).idx t = none) := by
  rw [forward_eq_done cam d inp sent X0 Y0 hsent hz]
  have hmain : (pass2Done cam d inp sent (pass1 cam d inp fun _ => sent) X0 Y0
      (fun _ => none) (cellList d)).idx t ≠ none ↔
      pass1 cam d inp (fun _ => sent) t ≠ sent := by
    constructor
    · intro h
      cases hlw : lastWin cam d inp (pass1 cam d inp fun _ => sent) (cellList d) t with
      | none =>
        exfalso
        apply h
        show (match lastWin cam d inp (pass1 cam d inp fun _ => sent) (cellList d) t with
          | some j => some j
          | none => none) = none
        rw [hlw]
      | some i =>
        obtain ⟨hwin, hmem⟩ := lastWin_some cam d inp _ hlw
        obtain ⟨h0z, _, _, hzeq⟩ := isWin_elim cam d inp _ hwin
        rw [← hzeq]
        exact ne_of_lt (hz i hmem h0z)
    · intro h
      obtain ⟨i, hmem, hwin⟩ := exists_winner cam d inp (fun _ => sent) t h
      cases hlw : lastWin cam d inp (pass1 cam d inp fun _ => sent) (cellList d) t with
      | none => exact absurd hlw (lastWin_ne_none cam d inp _ hmem hwin)
      | some j =>
        show (match lastWin cam d inp (pass1 cam d inp fun _ => sent) (cellList d) t with
          | some j => some j
          | none => none) ≠ none
        rw [hlw]
        simp
  refine ⟨hmain, fun h => ?_⟩
  by_contra hb
  exact hmain.mp hb h

theorem forward_idx_iff_witness :
    ((0 : ℚ) < 1000 ∧ ∀ j ∈ cellList dW, 0 < (inpW j).z → (inpW j).z < 1000) ∧
    (((forward camW dW inpW 1000 (fun _ => 0) (fun _ => 0)).idx (0, 0, 0) ≠ none ↔
        pass1 camW dW inpW (fun _ => 1000) (0, 0, 0) ≠ 1000) ∧
      (pass1 camW dW inpW (fun _ => 1000) (0, 0, 0) = 1000 →
        (forward camW dW inpW 1000 (fun _ => 0) (fun _ => 0)).idx (0, 0, 0) = none)) := by
  have h1 : (0 : ℚ) < 1000 := by norm_num
  have h2 : ∀ j ∈ cellList dW, 0 < (inpW j).z → (inpW j).z < 1000 := by
    with_unfolding_all decide
  exact ⟨⟨h1, h2⟩,
    forward_idx_iff camW dW inpW 1000 (fun _ => 0) (fun _ => 0) h1 h2 (0, 0, 0)⟩

/-- C4: every cell whose depth channel still holds the sentinel at the start
of pass 2 is reset to 0 there, and after Forward no in-grid cell's depth
channel retains the sentinel. -/
theorem forward_zero_fill (cam : Cam) (d : Dims) (inp : Cell → Pt) (sent : ℚ)
    (X0 Y0 : Cell → ℚ) (hsent : 0 < sent)
    (hz : ∀ j ∈ cellList d, 0 < (inp j).z → (inp j).z < sent)
    (t : Cell) (ht : t ∈ cellList d) :
    (pass1 cam d inp (fun _ => sent) t = sent →
      (forward cam d inp sent X0 Y0).outZ t = 0) ∧
    (forward cam d inp sent X0 Y0).outZ t ≠ sent := by
  rw [forward_eq_done cam d inp sent X0 Y0 hsent hz]
  show (_ → zDone sent (pass1 cam d inp fun _ => sent) (cellList d) t = 0) ∧
    zDone sent (pass1 cam d inp fun _ => sent) (cellList d) t ≠ sent
  unfold zDone
  constructor
  · intro h
    rw [if_pos ⟨ht, h⟩]
  · by_cases h : pass1 cam d inp (fun _ => sent) t = sent
    · rw [if_pos ⟨ht, h⟩]
      exact ne_of_lt hsent
    · rw [if_neg (fun hh => h hh.2)]
      exact h

theorem forward_zero_fill_witness :
    ((0 : ℚ) < 1000 ∧ (∀ j ∈ cellList dW, 0 < (inpNeg j).z → (inpNeg j).z < 1000) ∧
      ((0, 0, 0) : Cell) ∈ cellList dW) ∧
    ((pass1 camW dW inpNeg (fun _ => 1000) (0, 0, 0) = 1000 →
        (forward camW dW inpNeg 1000 (fun _ => 0) (fun _ => 0)).outZ (0, 0, 0) = 0) ∧
      (forward camW dW inpNeg 1000 (fun _ => 0) (fun _ => 0)).outZ (0, 0, 0) ≠ 1000) := by
  have h1 : (0 : ℚ) < 1000 := by norm_num
  have h2 : ∀ j ∈ cellList dW, 0 < (inpNeg j).z → (inpNeg j).z < 1000 := by
    with_unfolding_all decide
  have h3 : ((0, 0, 0) : Cell) ∈ cellList dW := by with_unfolding_all decide
  exact ⟨⟨h1, h2, h3⟩,
    forward_zero_fill camW dW inpNeg 1000 (fun _ => 0) (fun _ => 0) h1 h2 (0, 0, 0) h3⟩

/-- C5: a recorded index-map winner has positive depth, its rounded projection
is exactly the cell holding it, its depth equals the committed depth channel,
and the cell's first two channels hold its unrounded pixel coordinates. -/
theorem forward_winner_exact (cam : Cam) (d : Dims) (inp : Cell → Pt) (sent : ℚ)
    (X0 Y0 : Cell → ℚ) (hsent : 0 < sent)
    (hz : ∀ j ∈ cellList d, 0 < (inp j).z → (inp j).z < sent) (t i : Cell)
    (hidx : (forward cam d inp sent X0 Y0).idx t = some i) :
    0 < (inp i).z ∧ inB d cam (inp i) ∧ tgt cam i (inp i) = t ∧
      (inp i).z = (forward cam d inp sent X0 Y0).outZ t ∧
      (forward cam d inp sent X0 Y0).outX t = xpixOf cam (inp i) ∧
      (forward cam d inp sent X0 Y0).outY t = ypixOf cam (inp i) := by
  rw [forward_eq_done cam d inp sent X0 Y0 hsent hz] at hidx ⊢
  have hlw : lastWin cam d inp (pass1 cam d inp fun _ => sent) (cellList d) t = some i := by
    cases hlw2 : lastWin cam d inp (pass1 cam d inp fun _ => sent) (cellList d) t with
    | none =>
      exfalso
      have hn : (pass2Done cam d inp sent (pass1 cam d inp fun _ => sent) X0 Y0
          (fun _ => none) (cellList d)).idx t = none := by
        show (match lastWin cam d inp (pass1 cam d inp fun _ => sent) (cellList d) t with
          | some j => some j
          | none => none) = none
        rw [hlw2]
      rw [hn] at hidx
      exact Option.noConfusion hidx
    | some j =>
      have hs : (pass2Done cam d inp sent (pass1 cam d inp fun _ => sent) X0 Y0
          (fun _ => none) (cellList d)).idx t = some j := by
        show (match lastWin cam d inp (pass1 cam d inp fun _ => sent) (cellList d) t with
          | some j => some j
          | none => none) = some j
        rw [hlw2]
      rw [hs] at hidx
      exact hidx
  obtain ⟨hwin, hmem⟩ := lastWin_some cam d inp _ hlw
  obtain ⟨h1, h2, h3, h4⟩ := isWin_elim cam d inp _ hwin
  have hZ : (pass2Done cam d inp sent (pass1 cam d inp fun _ => sent) X0 Y0
      (fun _ => none) (cellList d)).outZ t = pass1 cam d inp (fun _ => sent) t := by
    show zDone sent (pass1 cam d inp fun _ => sent) (cellList d) t = _
    unfold zDone
    rw [if_neg ?_]
    intro hh
    exact absurd (h4 ▸ hh.2) (ne_of_lt (hz i hmem h1))
  refine ⟨h1, h2, h3, ?_, ?_, ?_⟩
  · rw [hZ]
    exact h4
  · show (match lastWin cam d inp (pass1 cam d inp fun _ => sent) (cellList d) t with
      | some j => xpixOf cam (inp j)
      | none => X0 t) = xpixOf cam (inp i)
    rw [hlw]
  · show (match lastWin cam d inp (pass1 cam d inp fun _ => sent) (cellList d) t with
      | some j => ypixOf cam (inp j)
      | none => Y0 t) = ypixOf cam (inp i)
    rw [hlw]

theorem forward_winner_exact_witness :
    ((0 : ℚ) < 1000 ∧ (∀ j ∈ cellList dW, 0 < (inpW j).z → (inpW j).z < 1000) ∧
      (forward camW dW inpW 1000 (fun _ => 0) (fun _ => 0)).idx (0, 0, 0) = some (0, 0, 0)) ∧
    (0 < (inpW (0, 0, 0)).z ∧ inB dW camW (inpW (0, 0, 0)) ∧
      tgt camW (0, 0, 0) (inpW (0, 0, 0)) = (0, 0, 0) ∧
      (inpW (0, 0, 0)).z = (forward camW dW inpW 1000 (fun _ => 0) (fun _ => 0)).outZ (0, 0, 0) ∧
      (forward camW dW inpW 1000 (fun _ => 0) (fun _ => 0)).outX (0, 0, 0) =
        xpixOf camW (inpW (0, 0, 0)) ∧
      (forward camW dW inpW 1000 (fun _ => 0) (fun _ => 0)).outY (0, 0, 0) =
        ypixOf camW (inpW (0, 0, 0))) := by
  have h1 : (0 : ℚ) < 1000 := by norm_num
  have h2 : ∀ j ∈ cellList dW, 0 < (inpW j).z → (inpW j).z < 1000 := by
    with_unfolding_all decide
  have h3 : (forward camW dW inpW 1000 (fun _ => 0) (fun _ => 0)).idx (0, 0, 0) =
      some (0, 0, 0) := by
    with_unfolding_all decide
  exact ⟨⟨h1, h2, h3⟩,
    forward_winner_exact camW dW inpW 1000 (fun _ => 0) (fun _ => 0) h1 h2 (0, 0, 0) (0, 0, 0) h3⟩

/-- A backward work item whose index-map entry does not name input cell i
leaves i's gradient unchanged. -/
theorem backStep_ne (cam : Cam) (inp : Cell → Pt) (idxm : Cell → Option Cell)
    (gOut : Cell → Pt) (G : Cell → Pt) (j : Cell) {i : Cell}
    (h : idxm j ≠ some i) : backStep cam inp idxm gOut G j i = G i := by
  unfold backStep
  cases hj : idxm j with
  | none => rfl
  | some k =>
    have hk : ¬i = k := fun hh => h (by rw [hj, hh])
    simp [hk]

theorem backwardL_not_touched (cam : Cam) (inp : Cell → Pt) (idxm : Cell → Option Cell)
    (gOut : Cell → Pt) (l : List Cell) (G0 : Cell → Pt) {i : Cell}
    (h : ∀ j ∈ l, idxm j ≠ some i) :
    backwardL cam inp idxm gOut l G0 i = G0 i := by
  induction l generalizing G0 with
  | nil => rfl
  | cons j l ih =>
    rw [backwardL, List.foldl_cons, ← backwardL]
    rw [ih _ (fun k hk => h k (List.mem_cons_of_mem j hk))]
    exact backStep_ne cam inp idxm gOut G0 j (h j (List.mem_cons_self j l))

/-- The backward value at a winner's input cell, when exactly one output cell
of the work list names it. -/
theorem backwardL_winner (cam : Cam) (inp : Cell → Pt) (idxm : Cell → Option Cell)
    (gOut : Cell → Pt) (l : List Cell) (G0 : Cell → Pt) {i t : Cell}
    (ht : t ∈ l) (hidx : idxm t = some i)
    (huniq : ∀ j ∈ l, idxm j = some i → j = t) :
    backwardL cam inp idxm gOut l G0 i = gradPt cam (inp i) (gOut t) := by
  induction l generalizing G0 with
  | nil => cases ht
  | cons j l ih =>
    rw [backwardL, List.foldl_cons, ← backwardL]
    by_cases hjt : j = t
    · subst hjt
      by_cases htl : j ∈ l
      · exact ih _ htl (fun k hk hik => huniq k (List.mem_cons_of_mem j hk) hik)
      · rw [backwardL_not_touched cam inp idxm gOut l _ ?_]
        · unfold backStep
          rw [hidx]
          simp
        · intro k hk hik
          exact absurd (huniq k (List.mem_cons_of_mem j hk) hik)
            (fun hh => htl (hh ▸ hk))
    · have ht2 : t ∈ l := by
        rcases List.mem_cons.mp ht with h | h
        · exact absurd h.symm hjt
        · exact h
      exact ih _ ht2 (fun k hk hik => huniq k (List.mem_cons_of_mem j hk) hik)

/-- C6: for every output cell with a recorded winner, Backward writes at the
winner's input location exactly the Jacobian-vector product of the pinhole
projection: ((fx/z)gx, (fy/z)gy, (-x/z^2)fx gx + (-y/z^2)fy gy + gz). -/
theorem backward_gradient (cam : Cam) (d : Dims) (inp : Cell → Pt) (sent : ℚ)
    (X0 Y0 : Cell → ℚ) (gOut G0 : Cell → Pt)
    (hsent : 0 < sent) (hz : ∀ j ∈ cellList d, 0 < (inp j).z → (inp j).z < sent)
    (t i : Cell) (ht : t ∈ cellList d)
    (hidx : (forward cam d inp sent X0 Y0).idx t = some i) :
    backward cam d inp ((forward cam d inp sent X0 Y0).idx) gOut G0 i =
      { x := cam.fx / (inp i).z * (gOut t).x,
        y := cam.fy / (inp i).z * (gOut t).y,
        z := -(inp i).x / (inp i).z ^ 2 * cam.fx * (gOut t).x +
          -(inp i).y / (inp i).z ^ 2 * cam.fy * (gOut t).y + (gOut t).z } := by
  have huniq : ∀ j ∈ cellList d, (forward cam d inp sent X0 Y0).idx j = some i → j = t := by
    intro j hj hij
    obtain ⟨_, _, h3j, _⟩ := forward_winner_exact cam d inp sent X0 Y0 hsent hz j i hij
    obtain ⟨_, _, h3t, _⟩ := forward_winner_exact cam d inp sent X0 Y0 hsent hz t i hidx
    rw [← h3j, ← h3t]
  rw [backward, backwardL_winner cam inp ((forward cam d inp sent X0 Y0).idx) gOut
    (cellList d) G0 ht hidx huniq]
  rfl

def gOutW : Cell → Pt := fun _ => { x := 1, y := 1, z := 1 }

def gZero : Cell → Pt := fun _ => { x := 0, y := 0, z := 0 }

theorem backward_gradient_witness :
    ((0 : ℚ) < 1000 ∧ (∀ j ∈ cellList dW, 0 < (inpW j).z → (inpW j).z < 1000) ∧
      ((0, 0, 0) : Cell) ∈ cellList dW ∧
      (forward camW dW inpW 1000 (fun _ => 0) (fun _ => 0)).idx (0, 0, 0) = some (0, 0, 0)) ∧
    backward camW dW inpW ((forward camW dW inpW 1000 (fun _ => 0) (fun _ => 0)).idx)
        gOutW gZero (0, 0, 0) =
      { x := camW.fx / (inpW (0, 0, 0)).z * (gOutW (0, 0, 0)).x,
        y := camW.fy / (inpW (0, 0, 0)).z * (gOutW (0, 0, 0)).y,
        z := -(inpW (0, 0, 0)).x / (inpW (0, 0, 0)).z ^ 2 * camW.fx * (gOutW (0, 0, 0)).x +
          -(inpW (0, 0, 0)).y / (inpW (0, 0, 0)).z ^ 2 * camW.fy * (gOutW (0, 0, 0)).y +
          (gOutW (0, 0, 0)).z } := by
  have h1 : (0 : ℚ) < 1000 := by norm_num
  have h2 : ∀ j ∈ cellList dW, 0 < (inpW j).z → (inpW j).z < 1000 := by
    with_unfolding_all decide
  have h3 : ((0, 0, 0) : Cell) ∈ cellList dW := by with_unfolding_all decide
  have h4 : (forward camW dW inpW 1000 (fun _ => 0) (fun _ => 0)).idx (0, 0, 0) =
      some (0, 0, 0) := by
    with_unfolding_all decide
  exact ⟨⟨h1, h2, h3, h4⟩,
    backward_gradient camW dW inpW 1000 (fun _ => 0) (fun _ => 0) gOutW gZero h1 h2
      (0, 0, 0) (0, 0, 0) h3 h4⟩

/-- C7: a point with non-positive depth, or one whose rounded projection falls
out of bounds, is inert: pass 1 leaves the depth buffer unchanged, pass 2
commits no coordinates and no index entry for it, it is never a recorded
winner, and Backward leaves its input-gradient cell untouched. -/
theorem invalid_point_inert (cam : Cam) (d : Dims) (inp : Cell → Pt) (sent : ℚ)
    (X0 Y0 : Cell → ℚ) (gOut G0 : Cell → Pt) (i : Cell)
    (hsent : 0 < sent) (hz : ∀ j ∈ cellList d, 0 < (inp j).z → (inp j).z < sent)
    (hbad : (inp i).z ≤ 0 ∨ ¬inB d cam (inp i)) :
    (∀ D : Cell → ℚ, pass1Step cam d inp D i = D) ∧
    (∀ s : St, (pass2Step cam d inp sent s i).outX = s.outX ∧
      (pass2Step cam d inp sent s i).outY = s.outY ∧
      (pass2Step cam d inp sent s i).idx = s.idx) ∧
    (∀ t : Cell, (forward cam d inp sent X0 Y0).idx t ≠ some i) ∧
    backward cam d inp ((forward cam d inp sent X0 Y0).idx) gOut G0 i = G0 i := by
  have hstep2 : ∀ s : St, pass2Step cam d inp sent s i = resetOwn sent s i := by
    intro s
    unfold pass2Step
    rcases hbad with hb | hb
    · rw [if_neg (not_lt.mpr hb)]
    · by_cases h1 : 0 < (inp i).z
      · rw [if_pos h1, if_neg hb]
      · rw [if_neg h1]
  have hnowin : ∀ t : Cell, (forward cam d inp sent X0 Y0).idx t ≠ some i := by
    intro t hcon
    obtain ⟨h1, h2, _, _⟩ := forward_winner_exact cam d inp sent X0 Y0 hsent hz t i hcon
    rcases hbad with hb | hb
    · exact absurd h1 (not_lt.mpr hb)
    · exact hb h2
  refine ⟨?_, ?_, hnowin, ?_⟩
  · intro D
    unfold pass1Step
    rcases hbad with hb | hb
    · rw [if_neg (not_lt.mpr hb)]
    · by_cases h1 : 0 < (inp i).z
      · rw [if_pos h1, if_neg hb]
      · rw [if_neg h1]
  · intro s
    rw [hstep2 s]
    exact ⟨resetOwn_outX sent s i, resetOwn_outY sent s i, resetOwn_idx sent s i⟩
  · exact backwardL_not_touched cam inp _ gOut (cellList d) G0
      (fun j _ => hnowin j)

theorem invalid_point_inert_witness :
    ((0 : ℚ) < 1000 ∧ (∀ j ∈ cellList dW, 0 < (inpNeg j).z → (inpNeg j).z < 1000) ∧
      ((inpNeg (0, 0, 0)).z ≤ 0 ∨ ¬inB dW camW (inpNeg (0, 0, 0)))) ∧
    ((∀ D : Cell → ℚ, pass1Step camW dW inpNeg D (0, 0, 0) = D) ∧
      (∀ s : St, (pass2Step camW dW inpNeg 1000 s (0, 0, 0)).outX = s.outX ∧
        (pass2Step camW dW inpNeg 1000 s (0, 0, 0)).outY = s.outY ∧
        (pass2Step camW dW inpNeg 1000 s (0, 0, 0)).idx = s.idx) ∧
      (∀ t : Cell,
        (forward camW dW inpNeg 1000 (fun _ => 0) (fun _ => 0)).idx t ≠ some (0, 0, 0)) ∧
      backward camW dW inpNeg ((forward camW dW inpNeg 1000 (fun _ => 0) (fun _ => 0)).idx)
        gOutW gZero (0, 0, 0) = gZero (0, 0, 0)) := by
  have h1 : (0 : ℚ) < 1000 := by norm_num
  have h2 : ∀ j ∈ cellList dW, 0 < (inpNeg j).z → (inpNeg j).z < 1000 := by
    with_unfolding_all decide
  have h3 : (inpNeg (0, 0, 0)).z ≤ 0 ∨ ¬inB dW camW (inpNeg (0, 0, 0)) := by
    left
    with_unfolding_all decide
  exact ⟨⟨h1, h2, h3⟩,
    invalid_point_inert camW dW inpNeg 1000 (fun _ => 0) (fun _ => 0) gOutW gZero
      (0, 0, 0) h1 h2 h3⟩

theorem foldl_perm_of_comm {α β : Type} (f : β → α → β)
    (hc : ∀ (b : β) (a a2 : α), f (f b a) a2 = f (f b a2) a)
    {l1 l2 : List α} (h : l1.Perm l2) : ∀ b : β, l1.foldl f b = l2.foldl f b := by
  induction h with
  | nil => intro b; rfl
  | cons x _ ih =>
    intro b
    rw [List.foldl_cons, List.foldl_cons, ih]
  | swap x y l =>
    intro b
    rw [List.foldl_cons, List.foldl_cons, List.foldl_cons, List.foldl_cons, hc b y x]
  | trans _ _ ih1 ih2 =>
    intro b
    rw [ih1, ih2]

/-- Two pass-1 work items commute: the depth test is a pointwise minimum. -/
theorem pass1Step_comm (cam : Cam) (d : Dims) (inp : Cell → Pt)
    (D : Cell → ℚ) (i j : Cell) :
    pass1Step cam d inp (pass1Step cam d inp D i) j =
      pass1Step cam d inp (pass1Step cam d inp D j) i := by
  funext t
  rw [pass1Step_apply, pass1Step_apply, pass1Step_apply, pass1Step_apply]
  by_cases hi : isCand cam d inp t i
  · by_cases hj : isCand cam d inp t j
    · rw [if_pos hi, if_pos hj, if_pos hi, if_pos hj]
      exact min_right_comm (D t) (inp i).z (inp j).z
    · rw [if_neg hj, if_pos hi, if_pos hi, if_neg hj]
  · by_cases hj : isCand cam d inp t j
    · rw [if_pos hj, if_neg hi, if_neg hi, if_pos hj]
    · rw [if_neg hj, if_neg hi, if_neg hi, if_neg hj]

/-- A 1-batch 1x2 grid: two work items, both points project to cell (0,0,0)
with equal depth (an exact depth tie). -/
def dW2 : Dims := { B := 1, R := 1, C := 2 }

/-- C8 counterexample: with two identical points tying for one cell, running
the pass-2 work items in the two possible orders records different winners in
the index map, so reordering changes the final output. -/
theorem pass2_reorder_cex :
    List.Perm [((0, 0, 1) : Cell), (0, 0, 0)] (cellList dW2) ∧
    pass2L camW dW2 inpW 1000 [((0, 0, 1) : Cell), (0, 0, 0)]
        (midSt camW dW2 inpW 1000 (fun _ => 0) (fun _ => 0)) ≠
      pass2L camW dW2 inpW 1000 (cellList dW2)
        (midSt camW dW2 inpW 1000 (fun _ => 0) (fun _ => 0)) := by
  have hcl : cellList dW2 = [((0, 0, 0) : Cell), (0, 0, 1)] := by
    with_unfolding_all decide
  constructor
  · rw [hcl]
    exact List.Perm.swap (0, 0, 0) (0, 0, 1) []
  · intro hcon
    have h2 := congrArg (fun s => s.idx (0, 0, 0)) hcon
    exact absurd h2 (by with_unfolding_all decide)

/-- Under unique winners, the last-processed winner of a cell does not depend
on the processing order. -/
theorem lastWin_perm (cam : Cam) (d : Dims) (inp : Cell → Pt) (D1 : Cell → ℚ)
    {l1 l2 : List Cell} (hperm : l1.Perm l2) (t : Cell)
    (huniq : ∀ i ∈ l2, ∀ j ∈ l2, isWin cam d inp D1 t i = true →
      isWin cam d inp D1 t j = true → i = j) :
    lastWin cam d inp D1 l1 t = lastWin cam d inp D1 l2 t := by
  cases hl2 : lastWin cam d inp D1 l2 t with
  | none =>
    apply lastWin_none_of
    intro j hj
    cases hw : isWin cam d inp D1 t j with
    | false => rfl
    | true => exact absurd hl2 (lastWin_ne_none cam d inp D1 (hperm.subset hj) hw)
  | some i =>
    obtain ⟨hwin, hmem⟩ := lastWin_some cam d inp D1 hl2
    cases hl1 : lastWin cam d inp D1 l1 t with
    | none => exact absurd hl1 (lastWin_ne_none cam d inp D1 (hperm.symm.subset hmem) hwin)
    | some k =>
      obtain ⟨hwk, hmk⟩ := lastWin_some cam d inp D1 hl1
      rw [huniq k (hperm.subset hmk) i hmem hwk hwin]

/-- C8 (amended): when no two distinct valid points target the same cell with
equal depth, permuting the work items of pass 1, pass 2 (started from the
pass-1-complete depth buffer) or the backward pass leaves the final depth
buffer, output grid, index map and input gradients unchanged. -/
theorem reorder_invariant (cam : Cam) (d : Dims) (inp : Cell → Pt) (sent : ℚ)
    (X0 Y0 : Cell → ℚ) (gOut G0 : Cell → Pt) (l : List Cell)
    (hsent : 0 < sent)
    (hz : ∀ j ∈ cellList d, 0 < (inp j).z → (inp j).z < sent)
    (hperm : List.Perm l (cellList d))
    (hnoties : ∀ i ∈ cellList d, ∀ j ∈ cellList d, 0 < (inp i).z → 0 < (inp j).z →
      inB d cam (inp i) → inB d cam (inp j) →
      tgt cam i (inp i) = tgt cam j (inp j) → (inp i).z = (inp j).z → i = j) :
    (∀ D0 : Cell → ℚ, pass1L cam d inp l D0 = pass1 cam d inp D0) ∧
    pass2L cam d inp sent l (midSt cam d inp sent X0 Y0) =
      forward cam d inp sent X0 Y0 ∧
    backwardL cam inp ((forward cam d inp sent X0 Y0).idx) gOut l G0 =
      backward cam d inp ((forward cam d inp sent X0 Y0).idx) gOut G0 := by
  have hwinuniq : ∀ t : Cell, ∀ i ∈ cellList d, ∀ j ∈ cellList d,
      isWin cam d inp (pass1 cam d inp fun _ => sent) t i = true →
      isWin cam d inp (pass1 cam d inp fun _ => sent) t j = true → i = j := by
    intro t i hi j hj hwi hwj
    obtain ⟨hi1, hi2, hi3, hi4⟩ := isWin_elim cam d inp _ hwi
    obtain ⟨hj1, hj2, hj3, hj4⟩ := isWin_elim cam d inp _ hwj
    exact hnoties i hi j hj hi1 hj1 hi2 hj2 (hi3.trans hj3.symm) (hi4.trans hj4.symm)
  refine ⟨?_, ?_, ?_⟩
  · intro D0
    exact foldl_perm_of_comm (pass1Step cam d inp) (pass1Step_comm cam d inp) hperm D0
  · have hmid : midSt cam d inp sent X0 Y0 =
        pass2Done cam d inp sent (pass1 cam d inp fun _ => sent) X0 Y0
          (fun _ => none) [] := by
      apply St.ext <;> rfl
    rw [hmid, pass2L_done cam d inp sent (pass1 cam d inp fun _ => sent) X0 Y0
      (fun _ => none) [] l hsent
      (fun j hj h1 h2 => pass1_le_cand cam d inp (fun _ => sent) (hperm.subset hj) h1 h2)
      (fun j hj => hz j (hperm.subset hj)),
      forward_eq_done cam d inp sent X0 Y0 hsent hz, List.nil_append]
    apply St.ext
    · funext t
      show (match lastWin cam d inp (pass1 cam d inp fun _ => sent) l t with
          | some j => xpixOf cam (inp j)
          | none => X0 t) = _
      rw [lastWin_perm cam d inp _ hperm t (hwinuniq t)]
      rfl
    · funext t
      show (match lastWin cam d inp (pass1 cam d inp fun _ => sent) l t with
          | some j => ypixOf cam (inp j)
          | none => Y0 t) = _
      rw [lastWin_perm cam d inp _ hperm t (hwinuniq t)]
      rfl
    · funext t
      show zDone sent (pass1 cam d inp fun _ => sent) l t =
        zDone sent (pass1 cam d inp fun _ => sent) (cellList d) t
      unfold zDone
      by_cases hD : pass1 cam d inp (fun _ => sent) t = sent
      · by_cases hm : t ∈ l
        · rw [if_pos ⟨hm, hD⟩, if_pos ⟨hperm.subset hm, hD⟩]
        · rw [if_neg (fun hh => hm hh.1), if_neg (fun hh => hm (hperm.mem_iff.mpr hh.1))]
      · rw [if_neg (fun hh => hD hh.2), if_neg (fun hh => hD hh.2)]
    · funext t
      show (match lastWin cam d inp (pass1 cam d inp fun _ => sent) l t with
          | some j => some j
          | none => none) = _
      rw [lastWin_perm cam d inp _ hperm t (hwinuniq t)]
      rfl
  · have hc : ∀ (G : Cell → Pt) (a b : Cell),
        backStep cam inp ((forward cam d inp sent X0 Y0).idx) gOut
          (backStep cam inp ((forward cam d inp sent X0 Y0).idx) gOut G a) b =
        backStep cam inp ((forward cam d inp sent X0 Y0).idx) gOut
          (backStep cam inp ((forward cam d inp sent X0 Y0).idx) gOut G b) a := by
      intro G a b
      by_cases hab : a = b
      · rw [hab]
      · unfold backStep
        cases ha : (forward cam d inp sent X0 Y0).idx a with
        | none =>
          cases hb : (forward cam d inp sent X0 Y0).idx b with
          | none => rfl
          | some ib => rfl
        | some ia =>
          cases hb : (forward cam d inp sent X0 Y0).idx b with
          | none => rfl
          | some ib =>
            have hne : ia ≠ ib := by
              intro hh
              subst hh
              obtain ⟨_, _, h3a, _⟩ :=
                forward_winner_exact cam d inp sent X0 Y0 hsent hz a ia ha
              obtain ⟨_, _, h3b, _⟩ :=
                forward_winner_exact cam d inp sent X0 Y0 hsent hz b ia hb
              exact hab (h3a.symm.trans h3b)
            have hne2 : ib ≠ ia := fun hh => hne hh.symm
            funext u
            by_cases hua : u = ia
            · rw [hua]
              simp [hne, hne2]
            · by_cases hub : u = ib
              · rw [hub]
                simp [hne, hne2]
              · simp [hua, hub]
    exact foldl_perm_of_comm _ hc hperm G0

theorem reorder_invariant_witness :
    ((0 : ℚ) < 1000 ∧ (∀ j ∈ cellList dW, 0 < (inpW j).z → (inpW j).z < 1000) ∧
      List.Perm (cellList dW) (cellList dW) ∧
      (∀ i ∈ cellList dW, ∀ j ∈ cellList dW, 0 < (inpW i).z → 0 < (inpW j).z →
        inB dW camW (inpW i) → inB dW camW (inpW j) →
        tgt camW i (inpW i) = tgt camW j (inpW j) → (inpW i).z = (inpW j).z → i = j)) ∧
    ((∀ D0 : Cell → ℚ, pass1L camW dW inpW (cellList dW) D0 = pass1 camW dW inpW D0) ∧
      pass2L camW dW inpW 1000 (cellList dW) (midSt camW dW inpW 1000 (fun _ => 0) (fun _ => 0)) =
        forward camW dW inpW 1000 (fun _ => 0) (fun _ => 0) ∧
      backwardL camW inpW ((forward camW dW inpW 1000 (fun _ => 0) (fun _ => 0)).idx) gOutW
          (cellList dW) gZero =
        backward camW dW inpW ((forward camW dW inpW 1000 (fun _ => 0) (fun _ => 0)).idx)
          gOutW gZero) := by
  have h1 : (0 : ℚ) < 1000 := by norm_num
  have h2 : ∀ j ∈ cellList dW, 0 < (inpW j).z → (inpW j).z < 1000 := by
    with_unfolding_all decide
  have h3 : List.Perm (cellList dW) (cellList dW) := List.Perm.refl _
  have h4 : ∀ i ∈ cellList dW, ∀ j ∈ cellList dW, 0 < (inpW i).z → 0 < (inpW j).z →
      inB dW camW (inpW i) → inB dW camW (inpW j) →
      tgt camW i (inpW i) = tgt camW j (inpW j) → (inpW i).z = (inpW j).z → i = j := by
    with_unfolding_all decide
  exact ⟨⟨h1, h2, h3, h4⟩,
    reorder_invariant camW dW inpW 1000 (fun _ => 0) (fun _ => 0) gOutW gZero
      (cellList dW) h1 h2 h3 h4⟩

/-- `numBlocks = ceil(npoints * (1.0/256))`: the launch's block count. -/
def numBlocks (n : ℕ) : ℕ := (n + 255) / 256

/-- Threads actually launched: numBlocks blocks of 256 threads. -/
def launchCount (n : ℕ) : ℕ := numBlocks n * 256

/-- A launched pass-1 thread: the kernel's `id >= npoints` early return, then
the work item. -/
def pass1Thread (cam : Cam) (d : Dims) (inp : Cell → Pt) (D : Cell → ℚ) (id : ℕ) :
    Cell → ℚ :=
  if id < npoints d then pass1Step cam d inp D (getCoordinates d.R d.C id) else D

/-- A launched pass-2 thread, with the same early return. -/
def pass2Thread (cam : Cam) (d : Dims) (inp : Cell → Pt) (sent : ℚ) (s : St) (id : ℕ) :
    St :=
  if id < npoints d then pass2Step cam d inp sent s (getCoordinates d.R d.C id) else s

/-- A launched backward thread, with the same early return. -/
def backThread (cam : Cam) (d : Dims) (inp : Cell → Pt) (idxm : Cell → Option Cell)
    (gOut : Cell → Pt) (G : Cell → Pt) (id : ℕ) : Cell → Pt :=
  if id < npoints d then backStep cam inp idxm gOut G (getCoordinates d.R d.C id) else G

/-- Coordinates lying inside the grid extents. -/
def inGrid (d : Dims) (i : Cell) : Prop := i.1 < d.B ∧ i.2.1 < d.R ∧ i.2.2 < d.C

theorem foldl_id_of {α β : Type} (f : β → α → β) (l : List α)
    (h : ∀ (b : β) (a : α), a ∈ l → f b a = b) : ∀ b : β, l.foldl f b = b := by
  induction l with
  | nil => intro b; rfl
  | cons a l ih =>
    intro b
    rw [List.foldl_cons, h b a (List.mem_cons_self a l)]
    exact ih (fun b2 a2 ha2 => h b2 a2 (List.mem_cons_of_mem a ha2)) b

theorem foldl_congr_mem {α β : Type} (f g : β → α → β) (l : List α)
    (h : ∀ (b : β) (a : α), a ∈ l → f b a = g b a) : ∀ b : β, l.foldl f b = l.foldl g b := by
  induction l with
  | nil => intro b; rfl
  | cons a l ih =>
    intro b
    rw [List.foldl_cons, List.foldl_cons, h b a (List.mem_cons_self a l)]
    exact ih (fun b2 a2 ha2 => h b2 a2 (List.mem_cons_of_mem a ha2)) _

/-- Folding a guarded kernel over all launched thread ids equals folding the
unguarded work items over the first npoints ids. -/
theorem foldl_guard {β : Type} (step : β → Cell → β) (np m R C : ℕ) (h : np ≤ m) (b : β) :
    (List.range m).foldl
        (fun s id => if id < np then step s (getCoordinates R C id) else s) b =
      ((List.range np).map (getCoordinates R C)).foldl step b := by
  obtain ⟨k, rfl⟩ := Nat.exists_eq_add_of_le h
  rw [List.range_add, List.foldl_append]
  rw [foldl_id_of (fun s id => if id < np then step s (getCoordinates R C id) else s)
    ((List.range k).map fun j => np + j) ?_]
  · rw [List.foldl_map]
    refine foldl_congr_mem _ _ _ ?_ b
    intro b2 a ha
    rw [if_pos (List.mem_range.mp ha)]
  · intro b2 a ha
    obtain ⟨j, _, rfl⟩ := List.mem_map.mp ha
    exact if_neg (by omega)

/-- C9: the launch geometry covers every work item; a thread with id at or
beyond npoints changes no state in any of the three kernels; every executed
work item's coordinates lie inside the grid; and the guarded launch of
ceil(npoints/256) blocks of 256 threads computes exactly the three passes. -/
theorem launch_guard_safe (cam : Cam) (d : Dims) (inp : Cell → Pt) (sent : ℚ)
    (idxm : Cell → Option Cell) (gOut : Cell → Pt) :
    (npoints d ≤ launchCount (npoints d)) ∧
    (∀ id : ℕ, npoints d ≤ id →
      (∀ D : Cell → ℚ, pass1Thread cam d inp D id = D) ∧
      (∀ s : St, pass2Thread cam d inp sent s id = s) ∧
      (∀ G : Cell → Pt, backThread cam d inp idxm gOut G id = G)) ∧
    (∀ id : ℕ, id < npoints d → inGrid d (getCoordinates d.R d.C id)) ∧
    (∀ D0 : Cell → ℚ,
      (List.range (launchCount (npoints d))).foldl (pass1Thread cam d inp) D0 =
        pass1 cam d inp D0) ∧
    (∀ s : St,
      (List.range (launchCount (npoints d))).foldl (pass2Thread cam d inp sent) s =
        pass2L cam d inp sent (cellList d) s) ∧
    (∀ G0 : Cell → Pt,
      (List.range (launchCount (npoints d))).foldl (backThread cam d inp idxm gOut) G0 =
        backward cam d inp idxm gOut G0) := by
  have hle : npoints d ≤ launchCount (npoints d) := by
    unfold launchCount numBlocks
    have h := Nat.div_add_mod (npoints d + 255) 256
    have h2 : (npoints d + 255) % 256 < 256 := Nat.mod_lt _ (by norm_num)
    omega
  refine ⟨hle, ?_, ?_, ?_, ?_, ?_⟩
  · intro id hid
    have hn := not_lt.mpr hid
    refine ⟨?_, ?_, ?_⟩
    · intro D
      unfold pass1Thread
      rw [if_neg hn]
    · intro s
      unfold pass2Thread
      rw [if_neg hn]
    · intro G
      unfold backThread
      rw [if_neg hn]
  · intro id hid
    have hprod : 0 < d.B * d.R * d.C := lt_of_le_of_lt (Nat.zero_le id) hid
    have hC : 0 < d.C := by
      rcases Nat.eq_zero_or_pos d.C with h0 | h0
      · rw [h0, mul_zero] at hprod
        exact absurd hprod (lt_irrefl 0)
      · exact h0
    have hR : 0 < d.R := by
      rcases Nat.eq_zero_or_pos d.R with h0 | h0
      · rw [h0, mul_zero, zero_mul] at hprod
        exact absurd hprod (lt_irrefl 0)
      · exact h0
    refine ⟨?_, Nat.mod_lt _ hR, Nat.mod_lt _ hC⟩
    show id / d.C / d.R < d.B
    rw [Nat.div_lt_iff_lt_mul hR, Nat.div_lt_iff_lt_mul hC]
    exact hid
  · intro D0
    exact foldl_guard (pass1Step cam d inp) (npoints d) (launchCount (npoints d))
      d.R d.C hle D0
  · intro s
    exact foldl_guard (pass2Step cam d inp sent) (npoints d) (launchCount (npoints d))
      d.R d.C hle s
  · intro G0
    exact foldl_guard (backStep cam inp idxm gOut) (npoints d) (launchCount (npoints d))
      d.R d.C hle G0

/-- A finite non-negative IEEE-754 single-precision float, by bit fields:
sign bit 0, biased exponent ex (0 to 254), 23-bit mantissa man. -/
structure PosF where
  ex : ℕ
  man : ℕ
  hex : ex ≤ 254
  hman : man < 2 ^ 23

/-- The float's bit pattern read as an unsigned integer (the value
`__float_as_int` hands to `atomicMin`; sign bit 0). -/
def bitsOf (a : PosF) : ℕ := a.ex * 2 ^ 23 + a.man

/-- The float's significand scaled by 2^149 (an integer): subnormals are
man * 2^(-149), normals are 2^(ex-127) * (1 + man/2^23). -/
def sigOf (a : PosF) : ℕ :=
  if a.ex = 0 then a.man else 2 ^ (a.ex - 1) * (2 ^ 23 + a.man)

/-- The real value of the float. -/
def valOf (a : PosF) : ℚ := (sigOf a : ℚ) / 2 ^ 149

/-- The bit pattern of `HUGE_VALF` (+inf), the caller's depth sentinel. -/
def sentBits : ℕ := 255 * 2 ^ 23

/-- One cell's pass-1 history: the atomic integer minimum folded over the bit
patterns of the committed depths, starting from the sentinel bits. -/
def atomicMinBits (zs : List PosF) : ℕ :=
  zs.foldl (fun acc p => min acc (bitsOf p)) sentBits

theorem bitsOf_lt_sentBits (a : PosF) : bitsOf a < sentBits := by
  unfold bitsOf sentBits
  have h2 := a.hman
  have h1 := a.hex
  have hp : (2 : ℕ) ^ 23 = 8388608 := by norm_num
  rw [hp] at h2 ⊢
  omega

theorem bits_lt_cases (a b : PosF) (h : bitsOf a < bitsOf b) :
    a.ex < b.ex ∨ (a.ex = b.ex ∧ a.man < b.man) := by
  unfold bitsOf at h
  have h2 := a.hman
  have h3 := b.hman
  have hp : (2 : ℕ) ^ 23 = 8388608 := by norm_num
  rw [hp] at h h2 h3
  omega

theorem sig_lt_of_bits_lt {a b : PosF} (h : bitsOf a < bitsOf b) :
    sigOf a < sigOf b := by
  have h23 : (0 : ℕ) < 2 ^ 23 + b.man := by positivity
  rcases bits_lt_cases a b h with hlt | ⟨heq, hman⟩
  · have hb1 : 1 ≤ b.ex := by omega
    unfold sigOf
    by_cases ha0 : a.ex = 0
    · rw [if_pos ha0, if_neg (by omega)]
      calc a.man < 2 ^ 23 := a.hman
        _ = 1 * 2 ^ 23 := (one_mul _).symm
        _ ≤ 2 ^ (b.ex - 1) * (2 ^ 23 + b.man) :=
            Nat.mul_le_mul (Nat.one_le_pow _ _ (by norm_num)) (by omega)
    · have ha1 : 1 ≤ a.ex := Nat.one_le_iff_ne_zero.mpr ha0
      rw [if_neg ha0, if_neg (by omega)]
      have hman24 : 2 ^ 23 + a.man < 2 ^ 24 := by
        have hm := a.hman
        have hp : (2 : ℕ) ^ 23 = 8388608 := by norm_num
        have hq : (2 : ℕ) ^ 24 = 16777216 := by norm_num
        omega
      calc 2 ^ (a.ex - 1) * (2 ^ 23 + a.man)
          < 2 ^ (a.ex - 1) * 2 ^ 24 :=
            mul_lt_mul_of_pos_left hman24 (pow_pos (by norm_num) _)
        _ = 2 ^ (a.ex - 1 + 24) := (pow_add 2 _ _).symm
        _ ≤ 2 ^ (b.ex - 1 + 23) := Nat.pow_le_pow_right (by norm_num) (by omega)
        _ = 2 ^ (b.ex - 1) * 2 ^ 23 := pow_add 2 _ _
        _ ≤ 2 ^ (b.ex - 1) * (2 ^ 23 + b.man) :=
            Nat.mul_le_mul_left _ (Nat.le_add_right _ _)
  · unfold sigOf
    rw [heq]
    by_cases hb0 : b.ex = 0
    · rw [if_pos hb0, if_pos hb0]
      exact hman
    · rw [if_neg hb0, if_neg hb0]
      exact mul_lt_mul_of_pos_left (by omega) (pow_pos (by norm_num) _)

theorem bits_inj {a b : PosF} (h : bitsOf a = bitsOf b) :
    a.ex = b.ex ∧ a.man = b.man := by
  unfold bitsOf at h
  have h2 := a.hman
  have h3 := b.hman
  have hp : (2 : ℕ) ^ 23 = 8388608 := by norm_num
  rw [hp] at h h2 h3
  omega

theorem sig_le_of_bits_le {a b : PosF} (h : bitsOf a ≤ bitsOf b) :
    sigOf a ≤ sigOf b := by
  rcases Nat.lt_or_ge (bitsOf a) (bitsOf b) with h2 | h2
  · exact le_of_lt (sig_lt_of_bits_lt h2)
  · obtain ⟨he, hm⟩ := bits_inj (le_antisymm h h2)
    unfold sigOf
    rw [he, hm]

theorem val_le_iff_sig_le (a b : PosF) : valOf a ≤ valOf b ↔ sigOf a ≤ sigOf b := by
  unfold valOf
  rw [div_le_div_iff_of_pos_right (by positivity), Nat.cast_le]

theorem bits_le_iff_val_le (a b : PosF) :
    bitsOf a ≤ bitsOf b ↔ valOf a ≤ valOf b := by
  rw [val_le_iff_sig_le]
  constructor
  · exact sig_le_of_bits_le
  · intro h
    by_contra hb
    have hlt : bitsOf b < bitsOf a := Nat.lt_of_not_le hb
    exact absurd h (Nat.not_le.mpr (sig_lt_of_bits_lt hlt))

/-- C2: for non-negative finite single-precision floats, the unsigned-integer
order of bit patterns agrees with the float order; consequently pass 1's
atomic integer minimum over bit-reinterpreted depths, starting from the +inf
sentinel bits, leaves the cell holding exactly the bit pattern of the float
minimum of the committed depths, and the sentinel when none were committed. -/
theorem float_bits_order_min (a b : PosF) (zs : List PosF) (h : zs ≠ []) :
    (bitsOf a ≤ bitsOf b ↔ valOf a ≤ valOf b) ∧
    (∃ m, m ∈ zs ∧ (∀ p ∈ zs, valOf m ≤ valOf p) ∧ atomicMinBits zs = bitsOf m) ∧
    atomicMinBits [] = sentBits := by
  refine ⟨bits_le_iff_val_le a b, ?_, rfl⟩
  have hfold : atomicMinBits zs = (zs.map bitsOf).foldl min sentBits := by
    unfold atomicMinBits
    rw [List.foldl_map]
  have hlt : ∀ q ∈ zs.map bitsOf, q < sentBits := by
    intro q hq
    obtain ⟨p, _, rfl⟩ := List.mem_map.mp hq
    exact bitsOf_lt_sentBits p
  rw [hfold, foldl_min_eq_minList hlt]
  cases zs with
  | nil => exact absurd rfl h
  | cons p ps =>
    have hsome : minList (List.map bitsOf (p :: ps)) =
        some ((ps.map bitsOf).foldl min (bitsOf p)) := rfl
    rw [hsome]
    have hmem : (ps.map bitsOf).foldl min (bitsOf p) ∈ List.map bitsOf (p :: ps) :=
      minList_mem hsome
    obtain ⟨m, hmzs, hmbits⟩ := List.mem_map.mp hmem
    refine ⟨m, hmzs, ?_, by rw [hmbits, Option.getD_some]⟩
    intro q hq
    rw [← bits_le_iff_val_le, hmbits]
    exact minList_le hsome (List.mem_map.mpr ⟨q, hq, rfl⟩)

def onePF : PosF := { ex := 127, man := 0, hex := by norm_num, hman := by norm_num }

def twoPF : PosF := { ex := 128, man := 0, hex := by norm_num, hman := by norm_num }

theorem float_bits_order_min_witness :
    ([onePF] ≠ ([] : List PosF)) ∧
    ((bitsOf onePF ≤ bitsOf twoPF ↔ valOf onePF ≤ valOf twoPF) ∧
      (∃ m, m ∈ [onePF] ∧ (∀ p ∈ [onePF], valOf m ≤ valOf p) ∧
        atomicMinBits [onePF] = bitsOf m) ∧
      atomicMinBits [] = sentBits) := by
  have h : [onePF] ≠ ([] : List PosF) := by simp
  exact ⟨h, float_bits_order_min onePF twoPF [onePF] h⟩

/-- Truncating base-2 logarithm, fuel-driven. -/
def lg2F : ℕ → ℕ → ℕ
  | 0, _ => 0
  | fuel + 1, n => if n < 2 then 0 else lg2F fuel (n / 2) + 1

/-- floor(log2 n) for offsets of C `long` width (fuel 64 covers n < 2^64). -/
def log2N (n : ℕ) : ℕ := lg2F 64 n

/-- Low bits dropped when n rounds to a 24-bit single-precision significand. -/
def sigShift (n : ℕ) : ℕ := if n < 2 ^ 24 then 0 else log2N n - 23

/-- Models `refineOutput`'s store of the winner's flat input offset into the
float index map (the integer converted to the nearest single-precision float,
ties to even) followed by `projectionGradient`'s truncating read back. -/
def storeLoad (n : ℕ) : ℕ :=
  if 2 * (n % 2 ^ sigShift n) < 2 ^ sigShift n then
    n / 2 ^ sigShift n * 2 ^ sigShift n
  else if 2 ^ sigShift n < 2 * (n % 2 ^ sigShift n) then
    (n / 2 ^ sigShift n + 1) * 2 ^ sigShift n
  else if n / 2 ^ sigShift n % 2 = 0 then
    n / 2 ^ sigShift n * 2 ^ sigShift n
  else (n / 2 ^ sigShift n + 1) * 2 ^ sigShift n

theorem lg2F_correct : ∀ fuel n : ℕ, 0 < n → n < 2 ^ fuel →
    2 ^ lg2F fuel n ≤ n ∧ n < 2 ^ (lg2F fuel n + 1) := by
  intro fuel
  induction fuel with
  | zero =>
    intro n h1 h2
    simp only [pow_zero] at h2
    omega
  | succ fuel ih =>
    intro n h1 h2
    by_cases hn : n < 2
    · have hval : lg2F (fuel + 1) n = 0 := by simp [lg2F, hn]
      rw [hval]
      constructor
      · simp only [pow_zero]
        omega
      · simpa using hn
    · have h2d : n / 2 < 2 ^ fuel := by
        rw [Nat.div_lt_iff_lt_mul (by norm_num)]
        calc n < 2 ^ (fuel + 1) := h2
          _ = 2 ^ fuel * 2 := pow_succ 2 fuel
      have h1d : 0 < n / 2 := Nat.div_pos (by omega) (by norm_num)
      obtain ⟨ha, hb⟩ := ih (n / 2) h1d h2d
      have hval : lg2F (fuel + 1) n = lg2F fuel (n / 2) + 1 := by
        simp [lg2F, hn]
      rw [hval]
      constructor
      · calc 2 ^ (lg2F fuel (n / 2) + 1) = 2 ^ lg2F fuel (n / 2) * 2 :=
              pow_succ 2 _
          _ ≤ n / 2 * 2 := Nat.mul_le_mul_right 2 ha
          _ ≤ n := Nat.div_mul_le_self n 2
      · have hlow : n < (n / 2 + 1) * 2 := by
          have hdm := Nat.div_add_mod n 2
          have hm : n % 2 < 2 := Nat.mod_lt _ (by norm_num)
          omega
        calc n < (n / 2 + 1) * 2 := hlow
          _ ≤ 2 ^ (lg2F fuel (n / 2) + 1) * 2 :=
              Nat.mul_le_mul_right 2 (Nat.succ_le_of_lt hb)
          _ = 2 ^ (lg2F fuel (n / 2) + 1 + 1) := (pow_succ 2 _).symm

theorem storeLoad_of_dvd {n : ℕ} (hdvd : 2 ^ sigShift n ∣ n) : storeLoad n = n := by
  have hpos : 0 < 2 ^ sigShift n := pow_pos (by norm_num) _
  have hr : n % 2 ^ sigShift n = 0 := Nat.dvd_iff_mod_eq_zero.mp hdvd
  unfold storeLoad
  rw [hr]
  rw [if_pos (by simp)]
  exact Nat.div_mul_cancel hdvd

/-- C10: pass 2 stores the winner's flat input offset by converting it to a
32-bit float and backward recovers it by truncation; the round trip is the
identity on every offset exactly representable in single precision (every
m * 2^k with m < 2^24 in the 64-bit offset range, in particular every offset
up to 2^24), and it maps the offset 2^24 + 1 to a different value. -/
theorem idx_offset_roundtrip :
    (∀ n : ℕ, n ≤ 2 ^ 24 → storeLoad n = n) ∧
    (∀ m k : ℕ, m < 2 ^ 24 → m * 2 ^ k < 2 ^ 64 → storeLoad (m * 2 ^ k) = m * 2 ^ k) ∧
    2 ^ 24 < 2 ^ 24 + 1 ∧ storeLoad (2 ^ 24 + 1) ≠ 2 ^ 24 + 1 := by
  have hsmall : ∀ n : ℕ, n < 2 ^ 24 → storeLoad n = n := by
    intro n hn
    have hs : sigShift n = 0 := by
      unfold sigShift
      rw [if_pos hn]
    apply storeLoad_of_dvd
    rw [hs, pow_zero]
    exact one_dvd n
  have hbig : ∀ n : ℕ, 2 ^ 24 ≤ n → n < 2 ^ 64 → 23 + sigShift n = log2N n ∧
      2 ^ (23 + sigShift n) ≤ n ∧ n < 2 ^ (24 + sigShift n) := by
    intro n h24 h64
    have h0 : 0 < n := lt_of_lt_of_le (by norm_num) h24
    obtain ⟨ha, hb⟩ := lg2F_correct 64 n h0 h64
    have hL : 24 ≤ log2N n := by
      have h1 : (2 : ℕ) ^ 24 < 2 ^ (log2N n + 1) := lt_of_le_of_lt h24 hb
      have h2 : 24 < log2N n + 1 := by
        by_contra hc
        exact absurd (Nat.pow_le_pow_right (by norm_num) (by omega)) (not_le.mpr h1)
      omega
    have hs : sigShift n = log2N n - 23 := by
      unfold sigShift
      rw [if_neg (not_lt.mpr h24)]
    constructor
    · omega
    constructor
    · have : 23 + sigShift n = log2N n := by omega
      rw [this]
      exact ha
    · have : 24 + sigShift n = log2N n + 1 := by omega
      rw [this]
      exact hb
  refine ⟨?_, ?_, by norm_num, by with_unfolding_all decide⟩
  · intro n hn
    rcases Nat.lt_or_ge n (2 ^ 24) with h | h
    · exact hsmall n h
    · have heq : n = 2 ^ 24 := le_antisymm hn h
      rw [heq]
      with_unfolding_all decide
  · intro m k hm hlt
    rcases Nat.lt_or_ge (m * 2 ^ k) (2 ^ 24) with h | h
    · exact hsmall _ h
    · obtain ⟨_, hlo, hhi⟩ := hbig (m * 2 ^ k) h hlt
      have hks : sigShift (m * 2 ^ k) ≤ k := by
        by_contra hc
        have hk2 : 24 + k ≤ 23 + sigShift (m * 2 ^ k) := by omega
        have : m * 2 ^ k < 2 ^ (24 + k) := by
          calc m * 2 ^ k < 2 ^ 24 * 2 ^ k :=
                (Nat.mul_lt_mul_right (pow_pos (by norm_num) k)).mpr hm
            _ = 2 ^ (24 + k) := (pow_add 2 24 k).symm
        exact absurd hlo
          (not_le.mpr (lt_of_lt_of_le this (Nat.pow_le_pow_right (by norm_num) hk2)))
      apply storeLoad_of_dvd
      exact Dvd.dvd.mul_left (pow_dvd_pow 2 hks) m

end OccMap
